import Mathlib

/-!
Verification of the ink-analyzer attribute classification, ordering,
flattening, suggestion and diagnostics logic, shallowly embedded from
the Rust sources under crates/ir and crates/analyzer.
-/

/-- The ink! attribute macro kind (crates/ir/src/attrs.rs, `InkMacroKind`). -/
inductive InkMacroKind
  | chainExtension
  | contract
  | storageItem
  | test
  | traitDefinition
  | e2eTest
  | unknown
deriving DecidableEq, Repr

/-- The ink! attribute argument kind (crates/ir/src/attrs/arg.rs, `InkArgKind`). -/
inductive InkArgKind
  | additionalContracts
  | anonymous
  | constructor
  | default
  | derive
  | env
  | environment
  | event
  | extension
  | handleStatus
  | impl
  | keepAttr
  | message
  | namespace'
  | payable
  | selector
  | storage
  | topic
  | unknown
deriving DecidableEq, Repr

/-- The ink! attribute kind (crates/ir/src/attrs.rs, `InkAttributeKind`):
either an attribute macro or an attribute argument. -/
inductive InkAttributeKind
  | macroAttr (m : InkMacroKind)
  | argAttr (a : InkArgKind)
deriving DecidableEq, Repr

/-- Rank of an argument kind (crates/ir/src/attrs/arg.rs, `ink_arg_kind_sort_order`):
0 for entity-type arguments, 1 for complementary arguments, 10 for unknown. -/
def ink_arg_kind_sort_order : InkArgKind → Nat
  | .constructor | .event | .extension | .impl | .message | .storage | .topic => 0
  | .additionalContracts | .anonymous | .default | .derive | .env | .environment
  | .handleStatus | .keepAttr | .namespace' | .payable | .selector => 1
  | .unknown => 10

/-- Comparator on argument kinds (crates/ir/src/attrs/arg.rs, `Ord for InkArgKind`):
compares the sort-order ranks only. -/
def cmpInkArgKind (l r : InkArgKind) : Ordering :=
  compare (ink_arg_kind_sort_order l) (ink_arg_kind_sort_order r)

/-- Comparator on attribute kinds (crates/ir/src/attrs.rs, `Ord for InkAttributeKind`):
macros are equal among themselves and rank below (higher priority than) arguments;
arguments compare by their own order. -/
def cmpInkAttributeKind : InkAttributeKind → InkAttributeKind → Ordering
  | .macroAttr _, .macroAttr _ => .eq
  | .macroAttr _, .argAttr _ => .lt
  | .argAttr _, .macroAttr _ => .gt
  | .argAttr l, .argAttr r => cmpInkArgKind l r

/-- Argument-name lookup (crates/ir/src/attrs/arg.rs, `From<&str> for InkArgKind`). -/
def inkArgKindFromStr : String → InkArgKind
  | "additional_contracts" => .additionalContracts
  | "anonymous" => .anonymous
  | "constructor" => .constructor
  | "default" => .default
  | "derive" => .derive
  | "env" => .env
  | "environment" => .environment
  | "event" => .event
  | "extension" => .extension
  | "handle_status" => .handleStatus
  | "impl" => .impl
  | "keep_attr" => .keepAttr
  | "message" => .message
  | "namespace" => .namespace'
  | "payable" => .payable
  | "selector" => .selector
  | "storage" => .storage
  | "topic" => .topic
  | _ => .unknown

/-- Macro-path lookup (crates/ir/src/attrs.rs, `From<(&str, &str)> for InkMacroKind`):
maps a (namespace, name) pair of path segments to a macro kind. -/
def inkMacroKindFrom : String → String → InkMacroKind
  | "ink", s2 =>
    match s2 with
    | "chain_extension" => .chainExtension
    | "contract" => .contract
    | "storage_item" => .storageItem
    | "test" => .test
    | "trait_definition" => .traitDefinition
    | _ => .unknown
  | "ink_e2e", s2 => if s2 = "test" then .e2eTest else .unknown
  | _, _ => .unknown

/-- Full dotted path of a macro kind (crates/ir/src/attrs.rs, `InkMacroKind::path_as_str`). -/
def inkMacroKindPath : InkMacroKind → String
  | .chainExtension => "ink::chain_extension"
  | .contract => "ink::contract"
  | .storageItem => "ink::storage_item"
  | .test => "ink::test"
  | .traitDefinition => "ink::trait_definition"
  | .e2eTest => "ink_e2e::test"
  | .unknown => ""

/-- A parsed meta name-value item (crates/ir/src/meta.rs is not under src;
the fields modelled here are the ones the classifier reads: `name` is the valid
meta name if one was parsed, `text` is the canonical `Display` rendering of the
whole item used when attributes are reconstructed). -/
structure MetaNameValue where
  name : Option String
  text : String
deriving DecidableEq, Repr

/-- An ink! attribute argument (crates/ir/src/attrs/arg.rs, `InkArg`). -/
structure InkArg where
  kind : InkArgKind
  meta : MetaNameValue
deriving DecidableEq, Repr

/-- Conversion of a meta item into an argument
(crates/ir/src/attrs/arg.rs, `From<MetaNameValue> for InkArg`):
a valid name is looked up, anything else becomes the unknown kind. -/
def InkArg.ofMeta (m : MetaNameValue) : InkArg :=
  { kind := match m.name with
      | some n => inkArgKindFromStr n
      | none => .unknown
    meta := m }

/-- A raw syntax-tree attribute node as consumed by the classifier:
its path segments (empty when the attribute has no path), whether a
parenthesized token tree is present, the meta items of its argument list,
and its text range. -/
structure RawAttr where
  pathSegments : List String
  hasTokenTree : Bool
  metas : List MetaNameValue
  range : Nat × Nat
deriving DecidableEq, Repr

/-- Modelled from the spec: `utils::parse_ink_args` (crates/ir/src/attrs/utils.rs is
not under src). The spec says all name-value argument entries are parsed from the
token list independent of validity, unknown names still being carried; the parsed
entries are taken here as the attribute data and each becomes an `InkArg`. -/
def parse_ink_args (attr : RawAttr) : List InkArg :=
  attr.metas.map InkArg.ofMeta

/-- Pointwise rank of an argument, used for the priority sort. -/
def argRank (a : InkArg) : Nat :=
  ink_arg_kind_sort_order a.kind

/-- Stable priority sort of arguments by rank
(the Rust side sorts with a stable sort by `Ord for InkArg`, which compares
`ink_arg_kind_sort_order` of the kinds; `List.insertionSort` with the rank
preorder is the same stable sort). -/
def sortInkArgs (args : List InkArg) : List InkArg :=
  List.insertionSort (fun a b => argRank a ≤ argRank b) args

/-- An ink! specific attribute (crates/ir/src/attrs.rs, `InkAttribute`):
the classified kind, the arguments in source order, and the attribute range. -/
structure InkAttribute where
  kind : InkAttributeKind
  args : List InkArg
  range : Nat × Nat
deriving DecidableEq, Repr

/-- Rank of a classified attribute kind, mirroring `Ord for InkAttributeKind`:
macros share the highest priority, arguments follow in rank order. -/
def inkAttributeKindRank : InkAttributeKind → Nat
  | .macroAttr _ => 0
  | .argAttr a => 1 + ink_arg_kind_sort_order a

/-- The classifier (crates/ir/src/attrs.rs, `InkAttribute::cast`). -/
def InkAttribute.cast (attr : RawAttr) : Option InkAttribute :=
  match attr.pathSegments with
  | [] => none
  | seg1 :: restSegs =>
    if seg1 = "ink" ∨ seg1 = "ink_e2e" then
      let args := parse_ink_args attr
      some
        { kind :=
            match restSegs with
            | _ :: _ :: _ => .macroAttr .unknown
            | [seg2] => .macroAttr (inkMacroKindFrom seg1 seg2)
            | [] =>
              match args with
              | [] =>
                if attr.hasTokenTree then .argAttr .unknown else .macroAttr .unknown
              | _ :: _ =>
                match (sortInkArgs args).head? with
                | some primary => .argAttr primary.kind
                | none => .argAttr .unknown
          args := args
          range := attr.range }
    else none

section StableSortFacts

variable {α : Type} (key : α → Nat)

/-- The head of the stable rank sort is the first minimal-key element:
the input splits around it, it has minimal key, and everything before it
in the input has strictly larger key. -/
theorem insertionSort_head_first_min :
    ∀ (l : List α) (x0 : α) (s : List α),
      List.insertionSort (fun a b => key a ≤ key b) l = x0 :: s →
      ∃ l1 l2, l = l1 ++ x0 :: l2 ∧ (∀ b ∈ l, key x0 ≤ key b) ∧
        (∀ b ∈ l1, key x0 < key b) := by
  intro l
  induction l with
  | nil => intro x0 s h; simp [List.insertionSort] at h
  | cons c t ih =>
    intro x0 s h
    rw [List.insertionSort] at h
    cases hs : List.insertionSort (fun a b => key a ≤ key b) t with
    | nil =>
      have ht : t = [] := by
        have hlen := List.length_insertionSort (fun a b => key a ≤ key b) t
        rw [hs] at hlen
        exact List.length_eq_zero.mp hlen.symm
      rw [hs] at h
      simp only [List.orderedInsert] at h
      have hx0 : x0 = c := (List.cons_eq_cons.mp h).1.symm
      refine ⟨[], t, by simp [hx0], ?_, by intro b hb; simp at hb⟩
      intro b hb
      rcases List.mem_cons.mp hb with hb | hb
      · subst hb; rw [hx0]
      · rw [ht] at hb; simp at hb
    | cons y s2 =>
      rw [hs] at h
      simp only [List.orderedInsert] at h
      obtain ⟨m1, m2, hdec, hmin, hstrict⟩ := ih y s2 hs
      by_cases hcy : key c ≤ key y
      · rw [if_pos hcy] at h
        have hx0 : x0 = c := (List.cons_eq_cons.mp h).1.symm
        subst hx0
        refine ⟨[], t, rfl, ?_, by intro b hb; simp at hb⟩
        intro b hb
        rcases List.mem_cons.mp hb with hb | hb
        · subst hb; exact Nat.le_refl _
        · exact Nat.le_trans hcy (hmin b hb)
      · rw [if_neg hcy] at h
        have hx0 : x0 = y := (List.cons_eq_cons.mp h).1.symm
        subst hx0
        have hyc : key x0 < key c := Nat.lt_of_not_le hcy
        refine ⟨c :: m1, m2, by rw [hdec]; rfl, ?_, ?_⟩
        · intro b hb
          rcases List.mem_cons.mp hb with hb | hb
          · subst hb; exact Nat.le_of_lt hyc
          · exact hmin b hb
        · intro b hb
          rcases List.mem_cons.mp hb with hb | hb
          · subst hb; exact hyc
          · exact hstrict b hb

/-- The stable sort permutes its input. -/
theorem insertionSort_perm_key (l : List α) :
    List.Perm (List.insertionSort (fun a b => key a ≤ key b) l) l :=
  List.perm_insertionSort _ l

/-- The stable sort output is pairwise nondecreasing in the key. -/
theorem insertionSort_pairwise_key (l : List α) :
    (List.insertionSort (fun a b => key a ≤ key b) l).Pairwise
      (fun a b => key a ≤ key b) := by
  haveI : IsTotal α (fun a b => key a ≤ key b) := ⟨fun a b => Nat.le_total _ _⟩
  haveI : IsTrans α (fun a b => key a ≤ key b) := ⟨fun a b c h1 h2 => Nat.le_trans h1 h2⟩
  exact List.sorted_insertionSort _ l

theorem filter_orderedInsert_key_pos (x : α) (v : Nat) (hx : key x = v) :
    ∀ l : List α,
      (List.orderedInsert (fun a b => key a ≤ key b) x l).filter
          (fun a => key a == v) =
        x :: l.filter (fun a => key a == v) := by
  intro l
  induction l with
  | nil => simp [List.orderedInsert, hx]
  | cons b t ih =>
    simp only [List.orderedInsert]
    by_cases hxb : key x ≤ key b
    · rw [if_pos hxb]
      simp [List.filter, hx]
    · rw [if_neg hxb]
      have hbv : (key b == v) = false := by
        have : key b < key x := Nat.lt_of_not_le hxb
        simp only [beq_eq_false_iff_ne, ne_eq]
        omega
      simp only [List.filter, hbv]
      exact ih

theorem filter_orderedInsert_key_neg (x : α) (v : Nat) (hx : key x ≠ v) :
    ∀ l : List α,
      (List.orderedInsert (fun a b => key a ≤ key b) x l).filter
          (fun a => key a == v) =
        l.filter (fun a => key a == v) := by
  intro l
  have hxv : (key x == v) = false := by simp [hx]
  induction l with
  | nil => simp [List.orderedInsert, hxv]
  | cons b t ih =>
    simp only [List.orderedInsert]
    by_cases hxb : key x ≤ key b
    · rw [if_pos hxb]
      simp only [List.filter, hxv]
    · rw [if_neg hxb]
      simp only [List.filter]
      cases hkb : key b == v <;> simp [ih]

/-- Stability of the rank sort: the subsequence of elements at any fixed key
is unchanged, i.e. ties keep their original relative order. -/
theorem filter_insertionSort_key (v : Nat) :
    ∀ l : List α,
      (List.insertionSort (fun a b => key a ≤ key b) l).filter
          (fun a => key a == v) =
        l.filter (fun a => key a == v) := by
  intro l
  induction l with
  | nil => simp [List.insertionSort]
  | cons c t ih =>
    rw [List.insertionSort]
    by_cases hc : key c = v
    · rw [filter_orderedInsert_key_pos key c v hc, ih]
      simp [List.filter, hc]
    · rw [filter_orderedInsert_key_neg key c v hc, ih]
      have : (key c == v) = false := by simp [hc]
      simp [List.filter, this]

end StableSortFacts

/-- Meta item for the argument `selector = 1`. -/
def selectorMeta : MetaNameValue := { name := some "selector", text := "selector = 1" }

/-- Meta item for the argument `payable`. -/
def payableMeta : MetaNameValue := { name := some "payable", text := "payable" }

/-- Meta item for the argument `message`. -/
def messageMeta : MetaNameValue := { name := some "message", text := "message" }

/-- C1: for an attribute whose path is exactly the reserved segment `ink` and that
has at least one parsed argument, `InkAttribute.cast` classifies it as `Arg(k)` where
k is the kind of the lowest-rank argument, ties broken by first occurrence in source
order, and the `args` sequence preserves source order; in particular every
permutation of `selector = 1`, `payable`, `message` classifies as `Arg(Message)`. -/
theorem ink_attribute_cast_primary_argument :
    (∀ (attr : RawAttr), attr.pathSegments = ["ink"] → parse_ink_args attr ≠ [] →
      ∃ (ia : InkAttribute) (primary : InkArg) (l1 l2 : List InkArg),
        InkAttribute.cast attr = some ia ∧
        ia.args = parse_ink_args attr ∧
        ia.kind = .argAttr primary.kind ∧
        parse_ink_args attr = l1 ++ primary :: l2 ∧
        (∀ b ∈ parse_ink_args attr, argRank primary ≤ argRank b) ∧
        (∀ b ∈ l1, argRank primary < argRank b)) ∧
    (∀ (metas : List MetaNameValue) (tt : Bool) (rng : Nat × Nat),
      List.Perm metas [selectorMeta, payableMeta, messageMeta] →
      ∃ ia : InkAttribute,
        InkAttribute.cast ⟨["ink"], tt, metas, rng⟩ = some ia ∧
        ia.kind = .argAttr .message ∧
        ia.args = metas.map InkArg.ofMeta) := by
  have main :
      ∀ (attr : RawAttr), attr.pathSegments = ["ink"] → parse_ink_args attr ≠ [] →
        ∃ (ia : InkAttribute) (primary : InkArg) (l1 l2 : List InkArg),
          InkAttribute.cast attr = some ia ∧
          ia.args = parse_ink_args attr ∧
          ia.kind = .argAttr primary.kind ∧
          parse_ink_args attr = l1 ++ primary :: l2 ∧
          (∀ b ∈ parse_ink_args attr, argRank primary ≤ argRank b) ∧
          (∀ b ∈ l1, argRank primary < argRank b) := by
    intro attr hpath hne
    obtain ⟨segs, tt, metas, rng⟩ := attr
    simp only [RawAttr.pathSegments] at hpath
    subst hpath
    cases hm : metas with
    | nil => subst hm; simp [parse_ink_args] at hne
    | cons m ms =>
      subst hm
      cases hh : sortInkArgs (parse_ink_args ⟨["ink"], tt, m :: ms, rng⟩) with
      | nil =>
        exfalso
        have hp := insertionSort_perm_key argRank
          (parse_ink_args ⟨["ink"], tt, m :: ms, rng⟩)
        rw [show sortInkArgs (parse_ink_args ⟨["ink"], tt, m :: ms, rng⟩) =
          List.insertionSort (fun a b => argRank a ≤ argRank b)
            (parse_ink_args ⟨["ink"], tt, m :: ms, rng⟩) from rfl] at hh
        rw [hh] at hp
        have hlen := hp.length_eq
        simp [parse_ink_args] at hlen
      | cons p rest =>
        have hpa : parse_ink_args ⟨["ink"], tt, m :: ms, rng⟩ =
            InkArg.ofMeta m :: List.map InkArg.ofMeta ms := rfl
        rw [hpa] at hh
        have hcast : InkAttribute.cast ⟨["ink"], tt, m :: ms, rng⟩ =
            some { kind := .argAttr p.kind,
                   args := InkArg.ofMeta m :: List.map InkArg.ofMeta ms,
                   range := rng } := by
          unfold InkAttribute.cast
          dsimp only
          rw [if_pos (Or.inl rfl)]
          dsimp only [parse_ink_args, List.map]
          rw [hh]
          rfl
        obtain ⟨l1, l2, hdec, hmin, hstrict⟩ :=
          insertionSort_head_first_min argRank _ p rest hh
        rw [hpa]
        exact ⟨_, p, l1, l2, hcast, rfl, rfl, hdec, hmin, hstrict⟩
  refine ⟨main, ?_⟩
  intro metas tt rng hperm
  have hmlen : metas.length = 3 := by
    have := hperm.length_eq
    simpa using this
  have hne : parse_ink_args ⟨["ink"], tt, metas, rng⟩ ≠ [] := by
    simp only [parse_ink_args, ne_eq, List.map_eq_nil_iff]
    intro hmet
    rw [hmet] at hmlen
    simp at hmlen
  obtain ⟨ia, primary, l1, l2, hcast, hargs, hkind, hdec, hmin, _⟩ :=
    main ⟨["ink"], tt, metas, rng⟩ rfl hne
  have hmsgmem : InkArg.ofMeta messageMeta ∈
      parse_ink_args ⟨["ink"], tt, metas, rng⟩ := by
    have hmem : messageMeta ∈ metas := hperm.mem_iff.mpr (by simp)
    exact List.mem_map_of_mem _ hmem
  have hrank0 : argRank primary = 0 := by
    have h1 := hmin _ hmsgmem
    have h2 : argRank (InkArg.ofMeta messageMeta) = 0 := by decide
    omega
  have hpmem : primary ∈ parse_ink_args ⟨["ink"], tt, metas, rng⟩ := by
    rw [hdec]
    exact List.mem_append_right _ (List.mem_cons_self _ _)
  obtain ⟨meta, hmetamem, hofmeta⟩ := List.mem_map.mp hpmem
  have hmeta3 : meta ∈ [selectorMeta, payableMeta, messageMeta] :=
    hperm.mem_iff.mp hmetamem
  have hpk : primary.kind = .message := by
    simp only [List.mem_cons, List.not_mem_nil, or_false] at hmeta3
    rw [← hofmeta] at hrank0 ⊢
    rcases hmeta3 with h | h | h <;> subst h
    · exact absurd hrank0 (by decide)
    · exact absurd hrank0 (by decide)
    · decide
  exact ⟨ia, hcast, by rw [hkind, hpk], hargs⟩

/-- Witness for C1: the permutation conjunct applied to the source-order
argument list `selector = 1, payable, message`. -/
theorem ink_attribute_cast_primary_argument_witness :
    ∃ ia : InkAttribute,
      InkAttribute.cast ⟨["ink"], true, [selectorMeta, payableMeta, messageMeta],
        (0, 40)⟩ = some ia ∧
      ia.kind = .argAttr .message ∧
      ia.args = [selectorMeta, payableMeta, messageMeta].map InkArg.ofMeta :=
  ink_attribute_cast_primary_argument.2 [selectorMeta, payableMeta, messageMeta]
    true (0, 40) (List.Perm.refl _)

/-- C2: the classifier returns `none` exactly when the attribute path has no
segments or its first segment is neither `ink` nor `ink_e2e`; for every other
input it returns a classified attribute. -/
theorem ink_attribute_cast_none_iff (attr : RawAttr) :
    InkAttribute.cast attr = none ↔
      attr.pathSegments = [] ∨
        ∃ s rest, attr.pathSegments = s :: rest ∧ s ≠ "ink" ∧ s ≠ "ink_e2e" := by
  obtain ⟨segs, tt, metas, rng⟩ := attr
  cases segs with
  | nil => simp [InkAttribute.cast]
  | cons s rest =>
    unfold InkAttribute.cast
    dsimp only
    by_cases h : s = "ink" ∨ s = "ink_e2e"
    · rw [if_pos h]
      simp only [reduceCtorEq, false_iff]
      intro hcontra
      rcases hcontra with hcontra | ⟨s', rest', heq, hn1, hn2⟩
      · exact hcontra
      · obtain ⟨hs, _⟩ := List.cons_eq_cons.mp heq
        subst hs
        rcases h with h | h
        · exact hn1 h
        · exact hn2 h
    · rw [if_neg h]
      push_neg at h
      simp only [true_iff]
      right
      exact ⟨s, rest, rfl, h.1, h.2⟩

/-- C3: a single reserved path segment with zero parsed arguments classifies
as `Arg(Unknown)` when a token tree is present and as `Macro(Unknown)` when
no token tree is present. -/
theorem ink_attribute_cast_zero_args (attr : RawAttr) (s : String)
    (hseg : attr.pathSegments = [s]) (hres : s = "ink" ∨ s = "ink_e2e")
    (hargs : parse_ink_args attr = []) :
    (attr.hasTokenTree = true →
      InkAttribute.cast attr =
        some { kind := .argAttr .unknown, args := [], range := attr.range }) ∧
    (attr.hasTokenTree = false →
      InkAttribute.cast attr =
        some { kind := .macroAttr .unknown, args := [], range := attr.range }) := by
  obtain ⟨segs, tt, metas, rng⟩ := attr
  simp only [RawAttr.pathSegments] at hseg
  subst hseg
  have hm : metas = [] := by
    simpa [parse_ink_args] using hargs
  subst hm
  constructor <;> intro htt <;> simp only [RawAttr.hasTokenTree] at htt <;> subst htt <;>
    · unfold InkAttribute.cast
      dsimp only
      rw [if_pos hres]
      rfl

/-- Witness for C3: `ink` with an empty token tree is an unknown argument
attribute, and bare `ink` with no token tree is an unknown macro attribute. -/
theorem ink_attribute_cast_zero_args_witness :
    InkAttribute.cast ⟨["ink"], true, [], (0, 7)⟩ =
      some { kind := .argAttr .unknown, args := [], range := (0, 7) } ∧
    InkAttribute.cast ⟨["ink"], false, [], (1, 6)⟩ =
      some { kind := .macroAttr .unknown, args := [], range := (1, 6) } :=
  ⟨(ink_attribute_cast_zero_args ⟨["ink"], true, [], (0, 7)⟩ "ink" rfl
      (Or.inl rfl) rfl).1 rfl,
   (ink_attribute_cast_zero_args ⟨["ink"], false, [], (1, 6)⟩ "ink" rfl
      (Or.inl rfl) rfl).2 rfl⟩

theorem compare_one_add (a b : Nat) : compare (1 + a) (1 + b) = compare a b := by
  rcases Nat.lt_trichotomy a b with h | h | h
  · rw [Nat.compare_eq_lt.mpr h, Nat.compare_eq_lt.mpr (by omega)]
  · subst h
    rw [Nat.compare_eq_eq.mpr rfl, Nat.compare_eq_eq.mpr rfl]
  · rw [Nat.compare_eq_gt.mpr h, Nat.compare_eq_gt.mpr (by omega)]

/-- The attribute-kind comparator agrees with comparing the combined ranks. -/
theorem cmpInkAttributeKind_eq_compareRank (x y : InkAttributeKind) :
    cmpInkAttributeKind x y =
      compare (inkAttributeKindRank x) (inkAttributeKindRank y) := by
  cases x with
  | macroAttr m =>
    cases y with
    | macroAttr m2 => exact (Nat.compare_eq_eq.mpr rfl).symm
    | argAttr a =>
      have hlt : inkAttributeKindRank (.macroAttr m) <
          inkAttributeKindRank (.argAttr a) := by
        show 0 < 1 + _
        omega
      exact (Nat.compare_eq_lt.mpr hlt).symm
  | argAttr a =>
    cases y with
    | macroAttr m2 =>
      have hlt : inkAttributeKindRank (.macroAttr m2) <
          inkAttributeKindRank (.argAttr a) := by
        show 0 < 1 + _
        omega
      exact (Nat.compare_eq_gt.mpr hlt).symm
    | argAttr b =>
      show cmpInkArgKind a b = compare (1 + _) (1 + _)
      rw [compare_one_add]
      rfl

theorem compare_ne_gt_iff (a b : Nat) : compare a b ≠ .gt ↔ a ≤ b := by
  rw [ne_eq, Nat.compare_eq_gt]
  omega

/-- C4: the attribute-kind comparison is a total (pre)order in which every macro
variant compares strictly less than every argument variant, any two macro variants
compare equal, and argument variants compare solely by rank (distinct same-rank
kinds compare equal); moreover exactly two path segments map through the fixed
lookup table while three or more segments, or an unmapped pair, yield the unknown
macro kind. -/
theorem ink_attribute_kind_order_and_macro_lookup :
    (∀ m a, cmpInkAttributeKind (.macroAttr m) (.argAttr a) = .lt) ∧
    (∀ m m2, cmpInkAttributeKind (.macroAttr m) (.macroAttr m2) = .eq) ∧
    (∀ a b, cmpInkAttributeKind (.argAttr a) (.argAttr b) =
      compare (ink_arg_kind_sort_order a) (ink_arg_kind_sort_order b)) ∧
    (∀ a b, ink_arg_kind_sort_order a = ink_arg_kind_sort_order b →
      cmpInkAttributeKind (.argAttr a) (.argAttr b) = .eq) ∧
    (cmpInkAttributeKind (.argAttr .event) (.argAttr .storage) = .eq ∧
      InkArgKind.event ≠ InkArgKind.storage) ∧
    (∀ x, cmpInkAttributeKind x x = .eq) ∧
    (∀ x y, cmpInkAttributeKind x y = .lt ↔ cmpInkAttributeKind y x = .gt) ∧
    (∀ x y z, cmpInkAttributeKind x y ≠ .gt → cmpInkAttributeKind y z ≠ .gt →
      cmpInkAttributeKind x z ≠ .gt) ∧
    (∀ (attr : RawAttr) (s1 s2 : String) (rest2 : List String),
      attr.pathSegments = s1 :: s2 :: rest2 → (s1 = "ink" ∨ s1 = "ink_e2e") →
      InkAttribute.cast attr =
        some { kind := .macroAttr
                 (match rest2 with
                  | [] => inkMacroKindFrom s1 s2
                  | _ :: _ => .unknown)
               args := parse_ink_args attr
               range := attr.range }) ∧
    (∀ s1 s2, inkMacroKindFrom s1 s2 ≠ .unknown →
      (s1 = "ink" ∧ (s2 = "chain_extension" ∨ s2 = "contract" ∨
        s2 = "storage_item" ∨ s2 = "test" ∨ s2 = "trait_definition")) ∨
      (s1 = "ink_e2e" ∧ s2 = "test")) ∧
    (inkMacroKindFrom "ink" "chain_extension" = .chainExtension ∧
     inkMacroKindFrom "ink" "contract" = .contract ∧
     inkMacroKindFrom "ink" "storage_item" = .storageItem ∧
     inkMacroKindFrom "ink" "test" = .test ∧
     inkMacroKindFrom "ink" "trait_definition" = .traitDefinition ∧
     inkMacroKindFrom "ink_e2e" "test" = .e2eTest) := by
  refine ⟨fun m a => rfl, fun m m2 => rfl, fun a b => rfl, ?_, by decide,
    ?_, ?_, ?_, ?_, ?_, by decide⟩
  · intro a b h
    show compare (ink_arg_kind_sort_order a) (ink_arg_kind_sort_order b) = .eq
    exact Nat.compare_eq_eq.mpr h
  · intro x
    rw [cmpInkAttributeKind_eq_compareRank]
    exact Nat.compare_eq_eq.mpr rfl
  · intro x y
    rw [cmpInkAttributeKind_eq_compareRank, cmpInkAttributeKind_eq_compareRank,
      Nat.compare_eq_lt, Nat.compare_eq_gt]
  · intro x y z h1 h2
    rw [cmpInkAttributeKind_eq_compareRank, compare_ne_gt_iff] at h1 h2 ⊢
    omega
  · intro attr s1 s2 rest2 hseg hres
    obtain ⟨segs, tt, metas, rng⟩ := attr
    simp only [RawAttr.pathSegments] at hseg
    subst hseg
    unfold InkAttribute.cast
    dsimp only
    rw [if_pos hres]
    cases rest2 <;> rfl
  · intro s1 s2 h
    unfold inkMacroKindFrom at h
    split at h
    · split at h
      · exact Or.inl ⟨rfl, Or.inl rfl⟩
      · exact Or.inl ⟨rfl, Or.inr (Or.inl rfl)⟩
      · exact Or.inl ⟨rfl, Or.inr (Or.inr (Or.inl rfl))⟩
      · exact Or.inl ⟨rfl, Or.inr (Or.inr (Or.inr (Or.inl rfl)))⟩
      · exact Or.inl ⟨rfl, Or.inr (Or.inr (Or.inr (Or.inr rfl)))⟩
      · exact absurd rfl h
    · split at h
      · rename_i hs2
        exact Or.inr ⟨rfl, hs2⟩
      · exact absurd rfl h
    · exact absurd rfl h

/-- Witness for C4: the same-rank conjunct at two distinct complementary kinds and
the macro-table conjunct at the concrete attribute path `ink::contract`. -/
theorem ink_attribute_kind_order_and_macro_lookup_witness :
    cmpInkAttributeKind (.argAttr .anonymous) (.argAttr .payable) = .eq ∧
    InkAttribute.cast ⟨["ink", "contract"], false, [], (0, 16)⟩ =
      some { kind := .macroAttr .contract, args := [], range := (0, 16) } := by
  refine ⟨ink_attribute_kind_order_and_macro_lookup.2.2.2.1 .anonymous .payable rfl, ?_⟩
  have h := ink_attribute_kind_order_and_macro_lookup.2.2.2.2.2.2.2.2.1
    ⟨["ink", "contract"], false, [], (0, 16)⟩ "ink" "contract" [] rfl (Or.inl rfl)
  exact h

/-- A text edit (crates/analyzer/src/analysis/text_edit.rs is not under src;
per the spec a `TextEdit` holds replacement text, a range in original-document
coordinates and an optional snippet rendering, with insert / replace / delete
constructors). -/
structure TextEdit where
  text : String
  range : Nat × Nat
  snippet : Option String
deriving DecidableEq, Repr

/-- Insert constructor: an empty range at the given offset. -/
def TextEdit.insert (text : String) (offset : Nat) : TextEdit :=
  { text := text, range := (offset, offset), snippet := none }

/-- Replace constructor: a non-empty range. -/
def TextEdit.replace (text : String) (range : Nat × Nat) : TextEdit :=
  { text := text, range := range, snippet := none }

/-- Delete constructor: replace with empty text. -/
def TextEdit.delete (range : Nat × Nat) : TextEdit :=
  { text := "", range := range, snippet := none }

/-- The action kind (crates/analyzer, `ActionKind`). -/
inductive ActionKind
  | refactor
  | quickFix
deriving DecidableEq, Repr

/-- A code/intent action (crates/analyzer, `Action`; that name collides with an
existing library name, hence the prime). -/
structure Action' where
  label : String
  kind : ActionKind
  range : Nat × Nat
  edits : List TextEdit
deriving DecidableEq, Repr

/-- Rank key for sorting whole attributes: `Ord for InkAttribute` delegates to
`Ord for InkAttributeKind`, which by `cmpInkAttributeKind_eq_compareRank` is the
comparison of these ranks. -/
def attrRankKey (a : InkAttribute) : Nat :=
  inkAttributeKindRank a.kind

/-- Stable sort of attributes by kind priority (the Rust side uses the stable
`sorted()` by `Ord for InkAttribute`). -/
def sortInkAttrs (attrs : List InkAttribute) : List InkAttribute :=
  List.insertionSort (fun a b => attrRankKey a ≤ attrRankKey b) attrs

/-- True exactly when the attribute kind is argument-based. -/
def isArgKindAttr (a : InkAttribute) : Bool :=
  match a.kind with
  | .argAttr _ => true
  | .macroAttr _ => false

/-- The replacement attribute text built by flattening: the macro path of a
macro-kind primary (or `ink` for an argument-kind primary), followed by the
rendered argument list. -/
def flattenReplacementText (kind : InkAttributeKind) (args : List InkArg) : String :=
  "#[" ++
    (match kind with
     | .macroAttr m => inkMacroKindPath m
     | .argAttr _ => "ink") ++
    "(" ++ String.intercalate ", " (args.map fun arg => arg.meta.text) ++ ")]"

/-- The flattening action (crates/analyzer/src/analysis/actions/item.rs,
`flatten_attrs`): the attributes are sorted by priority, the head is the primary;
an action is produced only when some other attribute is argument-based, replacing
the primary attribute with the reconstructed attribute over the union of the
primary arguments and the other argument-based attributes' arguments sorted by
priority, and deleting the other argument-based attributes. -/
def flatten_attrs (attrs : List InkAttribute) (range : Nat × Nat) : Option Action' :=
  match sortInkAttrs attrs with
  | [] => none
  | primary :: rest =>
    let otherArgAttrs := rest.filter isArgKindAttr
    if otherArgAttrs.isEmpty then none
    else
      some
        { label := "Flatten ink! attribute arguments."
          kind := .refactor
          range := range
          edits :=
            TextEdit.replace
                (flattenReplacementText primary.kind
                  (sortInkArgs (primary.args ++ (otherArgAttrs.map InkAttribute.args).flatten)))
                primary.range
              :: otherArgAttrs.map fun attr => TextEdit.delete attr.range }

/-- C5 counterexample: an item with two ink! attribute instances, both
macro-kind (`ink::contract` and `ink::storage_item`), gets no flatten action
at all, although the claim requires one (with a delete of the second
attribute) for every item with two or more ink! attribute instances. -/
theorem flatten_attrs_two_macros_counterexample :
    flatten_attrs
      [{ kind := .macroAttr .contract, args := [], range := (0, 16) },
       { kind := .macroAttr .storageItem, args := [], range := (17, 39) }]
      (0, 100) = none := by
  rfl

/-- C5 (amended): for an item whose sorted ink! attributes have a primary head
and at least one argument-kind non-primary, `flatten_attrs` offers exactly one
action whose first edit replaces the primary attribute's full range with
`#[<path>(<arguments>)]` — the macro path for a macro-kind primary and `ink`
otherwise — over the union of the primary's arguments and the argument-kind
others' arguments rendered canonically and stably sorted by rank (a permutation
of the union, pairwise nondecreasing in rank, every fixed-rank subsequence kept
in source order), and whose remaining edits delete exactly the argument-kind
non-primary attributes in order; macro-kind non-primaries are left untouched. -/
theorem flatten_attrs_flattening (attrs : List InkAttribute) (range : Nat × Nat)
    (primary : InkAttribute) (rest : List InkAttribute)
    (hsort : sortInkAttrs attrs = primary :: rest)
    (hne : rest.filter isArgKindAttr ≠ []) :
    ∃ (act : Action') (flatArgs : List InkArg),
      flatten_attrs attrs range = some act ∧
      act.label = "Flatten ink! attribute arguments." ∧
      act.kind = .refactor ∧
      act.edits =
        TextEdit.replace (flattenReplacementText primary.kind flatArgs) primary.range
          :: (rest.filter isArgKindAttr).map (fun attr => TextEdit.delete attr.range) ∧
      List.Perm flatArgs
        (primary.args ++ ((rest.filter isArgKindAttr).map InkAttribute.args).flatten) ∧
      flatArgs.Pairwise (fun a b => argRank a ≤ argRank b) ∧
      (∀ v, flatArgs.filter (fun a => argRank a == v) =
        (primary.args ++
          ((rest.filter isArgKindAttr).map InkAttribute.args).flatten).filter
          (fun a => argRank a == v)) := by
  have hemp : (rest.filter isArgKindAttr).isEmpty = false := by
    cases hf : rest.filter isArgKindAttr with
    | nil => exact absurd hf hne
    | cons x xs => rfl
  refine ⟨{ label := "Flatten ink! attribute arguments."
            kind := .refactor
            range := range
            edits :=
              TextEdit.replace
                  (flattenReplacementText primary.kind
                    (sortInkArgs (primary.args ++
                      ((rest.filter isArgKindAttr).map InkAttribute.args).flatten)))
                  primary.range
                :: (rest.filter isArgKindAttr).map fun attr =>
                    TextEdit.delete attr.range },
    sortInkArgs
      (primary.args ++ ((rest.filter isArgKindAttr).map InkAttribute.args).flatten),
    ?_, rfl, rfl, rfl, ?_, ?_, ?_⟩
  · unfold flatten_attrs
    rw [hsort]
    dsimp only
    rw [if_neg (by rw [hemp]; exact Bool.false_ne_true)]
  · exact insertionSort_perm_key argRank _
  · exact insertionSort_pairwise_key argRank _
  · intro v
    exact filter_insertionSort_key argRank v _

/-- Concrete attribute `#[ink::contract(env = crate::Environment)]`. -/
def contractEnvAttr : InkAttribute :=
  { kind := .macroAttr .contract
    args := [InkArg.ofMeta { name := some "env", text := "env = crate::Environment" }]
    range := (0, 41) }

/-- Concrete attribute `#[ink(keep_attr = "foo,bar")]`. -/
def keepAttrArgAttr : InkAttribute :=
  { kind := .argAttr .keepAttr
    args := [InkArg.ofMeta { name := some "keep_attr", text := "keep_attr = \"foo,bar\"" }]
    range := (42, 70) }

/-- Witness for C5: the amended flattening theorem applied to a concrete
macro-kind primary with one argument-kind sibling. -/
theorem flatten_attrs_flattening_witness :
    [keepAttrArgAttr].filter isArgKindAttr ≠ [] ∧
    ∃ act : Action', flatten_attrs [contractEnvAttr, keepAttrArgAttr] (0, 70) = some act := by
  have h := flatten_attrs_flattening [contractEnvAttr, keepAttrArgAttr] (0, 70)
    contractEnvAttr [keepAttrArgAttr] (by decide) (by decide)
  obtain ⟨act, flatArgs, heq, _⟩ := h
  exact ⟨by decide, act, heq⟩

/-- C6: flattening is idempotent on its result: an item carrying exactly one
ink! attribute (the shape a flatten action produces) is offered no flatten
action. -/
theorem flatten_attrs_single_attribute_none (a : InkAttribute) (range : Nat × Nat) :
    flatten_attrs [a] range = none :=
  rfl

/-- The analysed file as seen by root-level entity actions: only its list of
classified contracts matters (`InkFile::contracts`). -/
structure InkFile where
  contracts : List Unit
deriving DecidableEq, Repr

/-- Modelled from the spec: `entity::add_contract`
(crates/analyzer/src/analysis/actions/entity.rs is not under src). Per the spec,
a root-level add action carries a single insert edit placing the bare attribute
macro text at the given offset. -/
def add_contract (offset : Nat) : Action' :=
  { label := "Add ink! contract."
    kind := .refactor
    range := (offset, offset)
    edits := [TextEdit.insert "#[ink::contract]" offset] }

/-- Modelled from the spec: `entity::add_trait_definition` (entity.rs not under src). -/
def add_trait_definition (offset : Nat) : Action' :=
  { label := "Add ink! trait definition."
    kind := .refactor
    range := (offset, offset)
    edits := [TextEdit.insert "#[ink::trait_definition]" offset] }

/-- Modelled from the spec: `entity::add_chain_extension` (entity.rs not under src). -/
def add_chain_extension (offset : Nat) : Action' :=
  { label := "Add ink! chain extension."
    kind := .refactor
    range := (offset, offset)
    edits := [TextEdit.insert "#[ink::chain_extension]" offset] }

/-- Modelled from the spec: `entity::add_storage_item` (entity.rs not under src). -/
def add_storage_item (offset : Nat) : Action' :=
  { label := "Add ink! storage item."
    kind := .refactor
    range := (offset, offset)
    edits := [TextEdit.insert "#[ink::storage_item]" offset] }

/-- Root-level entity actions (crates/analyzer/src/analysis/actions/item.rs,
`root_ink_entity_actions`): an add-contract action when the file has no contract,
then always trait definition, chain extension and storage item, in that order. -/
def root_ink_entity_actions (file : InkFile) (offset : Nat) : List Action' :=
  (if file.contracts.isEmpty then [add_contract offset] else []) ++
    [add_trait_definition offset, add_chain_extension offset, add_storage_item offset]

/-- The empty-file branch of `actions` (crates/analyzer/src/analysis/actions/item.rs,
`actions`, no-focused-element case): an empty file has text range (0, 0), so
root-level entity actions are computed exactly when that range contains the given
range, with the range end as insertion offset. -/
def actions_empty_file (file : InkFile) (range : Nat × Nat) : List Action' :=
  if range.1 ≤ range.2 ∧ range.2 ≤ 0 then root_ink_entity_actions file range.2 else []

/-- C7: for an empty file with the cursor at offset 0, `actions` returns exactly
the four root-level add actions in order contract, trait definition, chain
extension, storage item, each carrying one insert edit placing the bare attribute
macro text at offset 0; and the add-contract action is in the root-level results
exactly when the file contains no contract. -/
theorem actions_empty_file_root_adds (file : InkFile) (hc : file.contracts = []) :
    actions_empty_file file (0, 0) =
      [add_contract 0, add_trait_definition 0, add_chain_extension 0,
        add_storage_item 0] ∧
    (add_contract 0).edits = [TextEdit.insert "#[ink::contract]" 0] ∧
    (add_trait_definition 0).edits = [TextEdit.insert "#[ink::trait_definition]" 0] ∧
    (add_chain_extension 0).edits = [TextEdit.insert "#[ink::chain_extension]" 0] ∧
    (add_storage_item 0).edits = [TextEdit.insert "#[ink::storage_item]" 0] ∧
    (∀ (f2 : InkFile) (off : Nat),
      add_contract off ∈ root_ink_entity_actions f2 off ↔ f2.contracts = []) := by
  refine ⟨?_, rfl, rfl, rfl, rfl, ?_⟩
  · unfold actions_empty_file root_ink_entity_actions
    rw [hc]
    rfl
  · intro f2 off
    obtain ⟨cs⟩ := f2
    unfold root_ink_entity_actions
    cases cs with
    | nil =>
      constructor
      · intro _
        rfl
      · intro _
        exact List.mem_append_left _ (List.mem_singleton_self _)
    | cons u us =>
      constructor
      · intro hmem
        exfalso
        simp only [List.isEmpty_cons, Bool.false_eq_true, if_false,
          List.nil_append, List.mem_cons, List.not_mem_nil, or_false] at hmem
        rcases hmem with h | h | h <;>
          simp [add_contract, add_trait_definition, add_chain_extension,
            add_storage_item] at h
      · intro h
        exact absurd h (List.cons_ne_nil u us)

/-- Witness for C7: the empty-file scenario on a file with no contracts. -/
theorem actions_empty_file_root_adds_witness :
    actions_empty_file { contracts := [] } (0, 0) =
      [add_contract 0, add_trait_definition 0, add_chain_extension 0,
        add_storage_item 0] :=
  (actions_empty_file_root_adds { contracts := [] } rfl).1

/-- The syntax kinds relevant to the suggestion tables. -/
inductive SyntaxKindModel
  | moduleItem
  | traitItem
  | structItem
  | enumItem
  | unionItem
  | fnItem
  | implItem
  | recordField
  | other
deriving DecidableEq, Repr

/-- Modelled from the spec: `utils::valid_ink_macros_by_syntax_kind`
(crates/analyzer/src/analysis/utils.rs is not under src). The base macro table
before scope filtering: module gets contract; trait gets chain extension and
trait definition; struct, enum and union get storage item; a function gets the
two test macros (the completions tests in src confirm both are surfaced for a
plain function); everything else gets none. -/
def valid_ink_macros_by_syntax_kind : SyntaxKindModel → List InkMacroKind
  | .moduleItem => [.contract]
  | .traitItem => [.chainExtension, .traitDefinition]
  | .structItem | .enumItem | .unionItem => [.storageItem]
  | .fnItem => [.test, .e2eTest]
  | _ => []

/-- Modelled from the spec:
`utils::remove_invalid_ink_macro_suggestions_for_parent_cfg_scope` (utils.rs not
under src). Keeps the test macro only when the target is lexically inside a
module annotated cfg(test), and the e2e test macro only inside a module
annotated cfg(all(test, feature = "e2e-tests")); other macros pass through. -/
def remove_invalid_macros_for_parent_cfg_scope
    (suggestions : List InkMacroKind) (inCfgTest inCfgE2eTests : Bool) :
    List InkMacroKind :=
  suggestions.filter fun m =>
    match m with
    | .test => inCfgTest
    | .e2eTest => inCfgE2eTests
    | _ => true

/-- Macro suggestions of the actions path for a function item
(crates/analyzer/src/analysis/actions/item.rs, `ink_macro_actions`): nothing when
the item already has an ink! attribute, otherwise the syntax-kind table filtered
by the parent cfg scope (the duplicate and ink-scope filters are identity for an
unannotated function outside any ink! scope). -/
def ink_macro_action_suggestions_for_fn
    (hasInkAttrs inCfgTest inCfgE2eTests : Bool) : List InkMacroKind :=
  if hasInkAttrs then []
  else
    remove_invalid_macros_for_parent_cfg_scope
      (valid_ink_macros_by_syntax_kind .fnItem) inCfgTest inCfgE2eTests

/-- Macro suggestions of the completions path for a function item
(crates/analyzer/src/analysis/completions.rs, `macro_completions`): nothing when
the item has other ink! attribute siblings, otherwise the syntax-kind table;
unlike the actions path, `macro_completions` never applies the parent cfg-scope
filter. -/
def macro_completion_suggestions_for_fn (hasInkSiblings : Bool) :
    List InkMacroKind :=
  if hasInkSiblings then []
  else valid_ink_macros_by_syntax_kind .fnItem

/-- C8 counterexample: on the completions path, a function with no ink!
attribute that is NOT inside any cfg(test) module still gets both test macros
suggested (the cfg context does not even enter the completions computation),
refuting the claim that both paths surface Test and E2ETest only inside the
matching cfg modules; the completions tests in src expect exactly these two
suggestions for a plain top-level function. -/
theorem macro_completions_fn_cfg_counterexample :
    macro_completion_suggestions_for_fn false = [.test, .e2eTest] :=
  rfl

/-- C8 (amended): on the actions path, for a function with no ink! attribute the
suggestions include Test exactly when the function is inside a cfg(test) module
and E2ETest exactly when it is inside a cfg(all(test, feature = "e2e-tests"))
module, only test macros are ever suggested for a function, and outside both
scopes nothing is suggested; on the completions path a function with no ink!
siblings always gets both test macros regardless of cfg scope. -/
theorem ink_macro_suggestions_for_fn_cfg_gating :
    (∀ hasAttrs inCfgTest inCfgE2e : Bool,
      (InkMacroKind.test ∈
          ink_macro_action_suggestions_for_fn hasAttrs inCfgTest inCfgE2e ↔
        hasAttrs = false ∧ inCfgTest = true) ∧
      (InkMacroKind.e2eTest ∈
          ink_macro_action_suggestions_for_fn hasAttrs inCfgTest inCfgE2e ↔
        hasAttrs = false ∧ inCfgE2e = true) ∧
      (∀ m ∈ ink_macro_action_suggestions_for_fn hasAttrs inCfgTest inCfgE2e,
        m = .test ∨ m = .e2eTest) ∧
      (inCfgTest = false → inCfgE2e = false →
        ink_macro_action_suggestions_for_fn hasAttrs inCfgTest inCfgE2e = [])) ∧
    (∀ hasSiblings : Bool,
      macro_completion_suggestions_for_fn hasSiblings =
        if hasSiblings then [] else [.test, .e2eTest]) := by
  constructor
  · intro hasAttrs inCfgTest inCfgE2e
    cases hasAttrs <;> cases inCfgTest <;> cases inCfgE2e <;>
      refine ⟨by decide, by decide, by decide, by decide⟩
  · intro hasSiblings
    cases hasSiblings <;> rfl

/-- Witness for C8: Test is suggested by the actions path inside a cfg(test)
module, and nothing is suggested by the actions path outside both cfg scopes. -/
theorem ink_macro_suggestions_for_fn_cfg_gating_witness :
    InkMacroKind.test ∈ ink_macro_action_suggestions_for_fn false true false ∧
    ink_macro_action_suggestions_for_fn false false false = [] :=
  ⟨(ink_macro_suggestions_for_fn_cfg_gating.1 false true false).1.mpr ⟨rfl, rfl⟩,
   (ink_macro_suggestions_for_fn_cfg_gating.1 false false false).2.2.2 rfl rfl⟩

/-- Diagnostic severity (crates/analyzer, `Severity`). -/
inductive Severity
  | error
  | warning
deriving DecidableEq, Repr

/-- A diagnostic (crates/analyzer, `Diagnostic`): message, range, severity and
optional quick-fix actions. -/
structure Diagnostic where
  message : String
  range : Nat × Nat
  severity : Severity
  quickfixes : Option (List Action')
deriving DecidableEq, Repr

/-- A self parameter of a function: whether the reference token `&` is present
(`self_param.amp_token().is_some()`). -/
structure SelfParam where
  hasAmp : Bool
deriving DecidableEq, Repr

/-- A function parameter list: the end offset of its opening parenthesis when
present (`l_paren_token()`), the optional self parameter, and the non-self
parameters (`params()`), carried as their texts. -/
structure ParamList where
  lparenEnd : Option Nat
  selfParam : Option SelfParam
  params : List String
deriving DecidableEq, Repr

/-- A function item as read by the receiver check: its optional parameter list
and its declaration range (`ast_item_declaration_range` with the fallback to the
full item range already applied). -/
structure FnItem where
  paramList : Option ParamList
  declRange : Nat × Nat
deriving DecidableEq, Repr

/-- Whether the function has a reference-to-self receiver
(crates/analyzer/src/analysis/diagnostics/message.rs, lines 57-61):
a self parameter exists and carries the `&` token. -/
def hasSelfRefReceiver (f : FnItem) : Bool :=
  match f.paramList with
  | some pl =>
    match pl.selfParam with
    | some sp => sp.hasAmp
    | none => false
  | none => false

/-- The receiver diagnostic (crates/analyzer/src/analysis/diagnostics/message.rs,
`ensure_receiver_is_self_ref`): an error diagnostic when the receiver is missing,
carrying two quick-fixes (one per receiver form) inserted right after the
parameter list's opening parenthesis, with a separator exactly when other
parameters exist; the quick-fixes are attached only when that parenthesis
exists. -/
def ensure_receiver_is_self_ref (f : FnItem) : Option Diagnostic :=
  if hasSelfRefReceiver f then none
  else
    some
      { message :=
          "ink! message must have a self reference receiver (i.e `&self` or `&mut self`)."
        range := f.declRange
        severity := .error
        quickfixes :=
          (f.paramList.bind fun pl => pl.lparenEnd).map fun insertOffset =>
            let hasMoreParams :=
              match f.paramList with
              | some pl => !pl.params.isEmpty
              | none => false
            let insertSuffix := if hasMoreParams then ", " else ""
            [ { label := "Add immutable self reference receiver"
                kind := .quickFix
                range := f.declRange
                edits := [TextEdit.insert ("&self" ++ insertSuffix) insertOffset] },
              { label := "Add mutable self reference receiver"
                kind := .quickFix
                range := f.declRange
                edits :=
                  [TextEdit.insert ("&mut self" ++ insertSuffix) insertOffset] } ] }

/-- C9: for a message function with a parameter list and opening parenthesis,
when the reference-to-self receiver is missing the check produces an Error
diagnostic with exactly two quick-fixes, inserting `&self` respectively
`&mut self` immediately after the opening parenthesis, followed by the
separator `, ` exactly when other parameters exist; when the receiver is
present no diagnostic is produced. -/
theorem ensure_receiver_is_self_ref_spec (f : FnItem) (pl : ParamList) (off : Nat)
    (hpl : f.paramList = some pl) (hlp : pl.lparenEnd = some off) :
    (hasSelfRefReceiver f = false →
      ∃ d : Diagnostic,
        ensure_receiver_is_self_ref f = some d ∧
        d.severity = .error ∧
        d.range = f.declRange ∧
        ∃ a1 a2 : Action',
          d.quickfixes = some [a1, a2] ∧
          a1.kind = .quickFix ∧ a2.kind = .quickFix ∧
          a1.edits =
            [TextEdit.insert ("&self" ++ if pl.params = [] then "" else ", ") off] ∧
          a2.edits =
            [TextEdit.insert ("&mut self" ++ if pl.params = [] then "" else ", ")
              off]) ∧
    (hasSelfRefReceiver f = true → ensure_receiver_is_self_ref f = none) := by
  obtain ⟨opl, dr⟩ := f
  simp only [FnItem.paramList] at hpl
  subst hpl
  obtain ⟨lp, sp, ps⟩ := pl
  simp only [ParamList.lparenEnd] at hlp
  subst hlp
  constructor
  · intro hno
    unfold ensure_receiver_is_self_ref
    simp only [hno, Bool.false_eq_true, if_false]
    cases ps with
    | nil => exact ⟨_, rfl, rfl, rfl, _, _, rfl, rfl, rfl, rfl, rfl⟩
    | cons p ps2 => exact ⟨_, rfl, rfl, rfl, _, _, rfl, rfl, rfl, rfl, rfl⟩
  · intro hyes
    unfold ensure_receiver_is_self_ref
    rw [hyes]
    rfl

/-- A function item with one non-self parameter and no self receiver. -/
def exampleNoRecvFn : FnItem :=
  { paramList := some { lparenEnd := some 10, selfParam := none, params := ["a: i32"] }
    declRange := (0, 20) }

/-- Witness for C9: `exampleNoRecvFn` yields the error diagnostic with the two
quick-fixes and the separator, since another parameter exists. -/
theorem ensure_receiver_is_self_ref_spec_witness :
    ∃ d : Diagnostic,
      ensure_receiver_is_self_ref exampleNoRecvFn = some d ∧
      d.severity = .error ∧
      d.range = (0, 20) ∧
      ∃ a1 a2 : Action',
        d.quickfixes = some [a1, a2] ∧
        a1.kind = .quickFix ∧ a2.kind = .quickFix ∧
        a1.edits = [TextEdit.insert ("&self" ++ ", ") 10] ∧
        a2.edits = [TextEdit.insert ("&mut self" ++ ", ") 10] := by
  have h := (ensure_receiver_is_self_ref_spec exampleNoRecvFn
    { lparenEnd := some 10, selfParam := none, params := ["a: i32"] }
    10 rfl rfl).1 rfl
  simpa using h

/-- List-recursive replacement of all non-overlapping occurrences of a nonempty
pattern, left to right, with a fuel argument (initially the list length, which
bounds the number of steps) so that the recursion is structural. This models
`str::replace` as used by `new_project`. -/
def replaceGo (pat rep : List Char) : Nat → List Char → List Char
  | _, [] => []
  | 0, cs => cs
  | fuel + 1, c :: cs =>
    if pat ≠ [] ∧ pat.isPrefixOf (c :: cs) then
      rep ++ replaceGo pat rep fuel (List.drop (pat.length - 1) cs)
    else c :: replaceGo pat rep fuel cs

/-- Replacement of all occurrences of `pat` by `rep` in `s`
(`str::replace` over the character list). -/
def str_replace (s pat rep : String) : String :=
  String.mk (replaceGo pat.data rep.data s.data.length s.data)

/-- Splits a character list on underscores. -/
def splitOnUnderscore : List Char → List (List Char)
  | [] => [[]]
  | c :: cs =>
    let r := splitOnUnderscore cs
    if c = '_' then [] :: r
    else
      match r with
      | [] => [[c]]
      | g :: gs => (c :: g) :: gs

/-- Modelled from the spec: `utils::pascal_case` (crates/analyzer/src/utils.rs is
not under src); capitalizes each underscore-separated segment of the module name
and joins them into the Pascal-case struct name. -/
def pascal_case (s : String) : String :=
  String.mk
    (((splitOnUnderscore s.data).map fun part =>
      match part with
      | [] => []
      | c :: cs => c.toUpper :: cs).flatten)

/-- An ink! project error (crates/analyzer/src/codegen.rs, `Error`). -/
inductive Error
  | packageName
  | contractName
deriving DecidableEq, Repr

/-- A generated project file (crates/analyzer/src/codegen.rs, `ProjectFile`). -/
structure ProjectFile where
  plain : String
  snippet : Option String
deriving DecidableEq, Repr

/-- A generated project (crates/analyzer/src/codegen.rs, `Project`). -/
structure Project where
  lib : ProjectFile
  cargo : ProjectFile
deriving DecidableEq, Repr

/-- Modelled from the spec: the fixed plain `lib.rs` contract template
`CONTRACT_PLAIN` (crates/analyzer/src/codegen/snippets.rs is not under src);
a fixed stub mentioning the placeholder module name `my_contract` and struct
name `MyContract`. -/
def CONTRACT_PLAIN : String :=
  "#[ink::contract]\npub mod my_contract: pub struct MyContract; impl my_contract"

/-- Modelled from the spec: the fixed snippet `lib.rs` contract template
`CONTRACT_SNIPPET` (snippets.rs not under src), the same stub with tab stops. -/
def CONTRACT_SNIPPET : String :=
  "#[ink::contract]\npub mod my_contract: pub struct MyContract; impl my_contract $1"

/-- Modelled from the spec: the fixed plain `Cargo.toml` template
`CARGO_TOML_PLAIN` (snippets.rs not under src). -/
def CARGO_TOML_PLAIN : String :=
  "[package]\nname = \"my_contract\"\nversion = \"0.1.0\""

/-- Modelled from the spec: the fixed snippet `Cargo.toml` template
`CARGO_TOML_SNIPPET` (snippets.rs not under src). -/
def CARGO_TOML_SNIPPET : String :=
  "[package]\nname = \"my_contract\"\nversion = \"$1\""

/-- Project generation (crates/analyzer/src/codegen.rs, `new_project`):
rejects names that are empty or contain a character that is not alphanumeric,
underscore or dash (invalid package name), then names whose first character is
not alphabetic (invalid contract name); otherwise substitutes the module name
(dashes replaced by underscores) and the Pascal-case struct name into the fixed
templates. The character classifiers (`char::is_alphanumeric`,
`char::is_alphabetic`) are passed as parameters since their Unicode tables live
outside this development. -/
def new_project (isAlphanumeric isAlphabetic : Char → Bool) (name : String) :
    Except Error Project :=
  if name.data.isEmpty ||
      !(name.data.all fun c => isAlphanumeric c || c == '_' || c == '-') then
    .error .packageName
  else if !(match name.data.head? with
            | some c => isAlphabetic c
            | none => false) then
    .error .contractName
  else
    let moduleName := str_replace name "-" "_"
    let structName := pascal_case moduleName
    .ok
      { lib :=
          { plain :=
              str_replace (str_replace CONTRACT_PLAIN "my_contract" moduleName)
                "MyContract" structName
            snippet :=
              some (str_replace (str_replace CONTRACT_SNIPPET "my_contract" moduleName)
                "MyContract" structName) }
        cargo :=
          { plain := str_replace CARGO_TOML_PLAIN "my_contract" name
            snippet := some (str_replace CARGO_TOML_SNIPPET "my_contract" name) } }

/-- C10: `new_project` yields the package-name error exactly when the name is
empty or contains a character that is neither alphanumeric nor underscore nor
dash; otherwise the contract-name error exactly when the first character is not
alphabetic; otherwise the project whose lib stub substitutes the module name
(dashes to underscores) and its Pascal-case struct name into the fixed
templates. -/
theorem new_project_spec (isAlnum isAlpha : Char → Bool) (name : String) :
    (new_project isAlnum isAlpha name = .error .packageName ↔
      name.data = [] ∨ ∃ c ∈ name.data, ¬(isAlnum c = true ∨ c = '_' ∨ c = '-')) ∧
    (new_project isAlnum isAlpha name = .error .contractName ↔
      name.data ≠ [] ∧ (∀ c ∈ name.data, isAlnum c = true ∨ c = '_' ∨ c = '-') ∧
      (∀ c, name.data.head? = some c → isAlpha c = false)) ∧
    ((name.data ≠ [] ∧ (∀ c ∈ name.data, isAlnum c = true ∨ c = '_' ∨ c = '-') ∧
      (∃ c, name.data.head? = some c ∧ isAlpha c = true)) →
      new_project isAlnum isAlpha name =
        .ok { lib :=
                { plain :=
                    str_replace
                      (str_replace CONTRACT_PLAIN "my_contract"
                        (str_replace name "-" "_"))
                      "MyContract" (pascal_case (str_replace name "-" "_"))
                  snippet :=
                    some (str_replace
                      (str_replace CONTRACT_SNIPPET "my_contract"
                        (str_replace name "-" "_"))
                      "MyContract" (pascal_case (str_replace name "-" "_"))) }
              cargo :=
                { plain := str_replace CARGO_TOML_PLAIN "my_contract" name
                  snippet :=
                    some (str_replace CARGO_TOML_SNIPPET "my_contract" name) } }) := by
  have hgood :
      ∀ (hne : name.data ≠ [])
        (hall : ∀ c ∈ name.data, isAlnum c = true ∨ c = '_' ∨ c = '-'),
        (name.data.isEmpty ||
          !(name.data.all fun c => isAlnum c || c == '_' || c == '-')) = false := by
    intro hne hall
    have he : name.data.isEmpty = false := by
      cases hd : name.data with
      | nil => exact absurd hd hne
      | cons c cs => rfl
    have ha : (name.data.all fun c => isAlnum c || c == '_' || c == '-') = true := by
      rw [List.all_eq_true]
      intro c hc
      rcases hall c hc with h | h | h <;> simp [h]
    rw [he, ha]
    rfl
  refine ⟨?_, ?_, ?_⟩
  · unfold new_project
    by_cases h1 : (name.data.isEmpty ||
        !(name.data.all fun c => isAlnum c || c == '_' || c == '-')) = true
    · rw [if_pos h1]
      simp only [true_iff]
      simp only [Bool.or_eq_true, List.isEmpty_iff, Bool.not_eq_true',
        List.all_eq_false] at h1
      rcases h1 with h1 | ⟨c, hc, hcf⟩
      · exact Or.inl h1
      · refine Or.inr ⟨c, hc, ?_⟩
        intro hcon
        rcases hcon with h | h | h
        · simp [h] at hcf
        · simp [h] at hcf
        · simp [h] at hcf
    · rw [if_neg h1]
      constructor
      · intro hcon
        exfalso
        split at hcon
        · exact Except.noConfusion hcon (fun heq => Error.noConfusion heq)
        · exact Except.noConfusion hcon
      · intro hcon
        exfalso
        apply h1
        simp only [Bool.or_eq_true, List.isEmpty_iff, Bool.not_eq_true',
          List.all_eq_false]
        rcases hcon with h | ⟨c, hc, hcf⟩
        · exact Or.inl h
        · refine Or.inr ⟨c, hc, ?_⟩
          cases hca : isAlnum c with
          | true => exact absurd (Or.inl hca) hcf
          | false =>
            have hu : c ≠ '_' := fun h => hcf (Or.inr (Or.inl h))
            have hd : c ≠ '-' := fun h => hcf (Or.inr (Or.inr h))
            simp [hu, hd]
  · unfold new_project
    by_cases h1 : (name.data.isEmpty ||
        !(name.data.all fun c => isAlnum c || c == '_' || c == '-')) = true
    · rw [if_pos h1]
      constructor
      · intro hcon
        exact absurd (Except.error.inj hcon) (by intro h; cases h)
      · intro ⟨hne, hall, _⟩
        rw [hgood hne hall] at h1
        exact absurd h1 Bool.false_ne_true
    · rw [if_neg h1]
      have hne : name.data ≠ [] := by
        intro hd
        apply h1
        rw [hd]
        rfl
      have hall : ∀ c ∈ name.data, isAlnum c = true ∨ c = '_' ∨ c = '-' := by
        intro c hc
        by_contra hcon
        apply h1
        simp only [Bool.or_eq_true, List.isEmpty_iff, Bool.not_eq_true',
          List.all_eq_false]
        refine Or.inr ⟨c, hc, ?_⟩
        cases hca : isAlnum c with
        | true => exact absurd (Or.inl hca) hcon
        | false =>
          have hu : c ≠ '_' := fun h => hcon (Or.inr (Or.inl h))
          have hd2 : c ≠ '-' := fun h => hcon (Or.inr (Or.inr h))
          simp [hu, hd2]
      obtain ⟨c0, cs0, hd0⟩ : ∃ c0 cs0, name.data = c0 :: cs0 := by
        cases hd : name.data with
        | nil => exact absurd hd hne
        | cons c cs => exact ⟨c, cs, rfl⟩
      by_cases h2 : (!(match name.data.head? with
          | some c => isAlpha c
          | none => false)) = true
      · rw [if_pos h2]
        simp only [true_iff]
        refine ⟨hne, hall, ?_⟩
        intro c hc
        rw [hd0] at h2 hc
        simp only [List.head?_cons, Option.some.injEq] at hc
        subst hc
        simpa using h2
      · rw [if_neg h2]
        constructor
        · intro hcon
          exact Except.noConfusion hcon
        · intro ⟨_, _, hhead⟩
          exfalso
          apply h2
          rw [hd0]
          have := hhead c0 (by rw [hd0]; rfl)
          simp [this]
  · intro ⟨hne, hall, c0, hhead, halpha⟩
    unfold new_project
    rw [if_neg (by rw [hgood hne hall]; exact Bool.false_ne_true)]
    have hh2 : (!(match name.data.head? with
        | some c => isAlpha c
        | none => false)) = false := by
      obtain ⟨c1, cs1, hd1⟩ : ∃ c1 cs1, name.data = c1 :: cs1 := by
        cases hd : name.data with
        | nil => exact absurd hd hne
        | cons c cs => exact ⟨c, cs, rfl⟩
      rw [hd1]
      rw [hd1] at hhead
      simp only [List.head?_cons, Option.some.injEq] at hhead
      subst hhead
      simp [halpha]
    rw [if_neg (by rw [hh2]; exact Bool.false_ne_true)]

/-- Witness for C10: the valid name `hello-world` with the standard character
classifiers produces the project with module name `hello_world` and struct name
`HelloWorld` substituted into the templates. -/
theorem new_project_spec_witness :
    new_project Char.isAlphanum Char.isAlpha "hello-world" =
      .ok { lib :=
              { plain :=
                  str_replace
                    (str_replace CONTRACT_PLAIN "my_contract"
                      (str_replace "hello-world" "-" "_"))
                    "MyContract" (pascal_case (str_replace "hello-world" "-" "_"))
                snippet :=
                  some (str_replace
                    (str_replace CONTRACT_SNIPPET "my_contract"
                      (str_replace "hello-world" "-" "_"))
                    "MyContract"
                    (pascal_case (str_replace "hello-world" "-" "_"))) }
            cargo :=
              { plain := str_replace CARGO_TOML_PLAIN "my_contract" "hello-world"
                snippet :=
                  some (str_replace CARGO_TOML_SNIPPET "my_contract"
                    "hello-world") } } :=
  (new_project_spec Char.isAlphanum Char.isAlpha "hello-world").2.2
    ⟨by decide, by decide, 'h', by decide, by decide⟩
